import Mathlib

/-!
Shallow embedding of `src/xun/functions/xun_typing.py` (the `TypeDeducer`
visitor) and proofs about it.

The Python module infers a coarse semantic type for every expression of a
xun function body.  The type objects that flow through the visitor are:
the singleton `XunType` instance, `typing.Any`, Python `None` (returned by
the `pass`-bodied visitors such as `visit_BoolOp`), `typing.Tuple[...]`
generic aliases (built by `visit_Tuple`), and `typing.Union[...]` aliases
(built by `visit_IfExp`).  `type(None)` can additionally appear as a member
of a union, because `typing.Union` converts a `None` argument to
`type(None)`.

CPython facts this embedding relies on (all checked against the `typing`
module semantics the source runs under, Python 3.7+):
* `typing` caches generic aliases, so `typing.Tuple[a, b]` and
  `typing.Union[a, b]` built twice from the same arguments are the *same*
  object; hence the `is` comparisons in `visit_Set` and `visit_IfExp`
  coincide with structural equality on the type objects modelled here.
* `isinstance(x, typing.Tuple)` delegates to `isinstance(x, tuple)` and is
  `False` for every type object the visitor can produce (none of them is a
  Python `tuple` instance).
* `typing.Union[a, b]` converts `None` to `type(None)`, flattens nested
  unions, removes duplicates keeping the first occurrence, and collapses a
  singleton to its only member.
* `typing.Tuple[...]` aliases have `__origin__ is tuple`; `typing.Union`
  aliases have `__origin__ is typing.Union` (not `tuple`) but do have
  `__args__`; `typing.Any`, `XunType`, `None` and `type(None)` have no
  `__args__`, so accessing it raises `AttributeError`; indexing `__args__`
  out of range raises `IndexError`.
-/

namespace XunTyping

/-- Semantic type objects that flow through `TypeDeducer`.  `xun` is the
`XunType` singleton, `any` is `typing.Any`, `pynone` is the Python `None`
returned by the unsupported (`pass`-bodied) visitors, `noneType` is
`type(None)` as produced by `typing.Union` normalisation, `tup ts` is
`typing.Tuple[ts...]` and `union ts` is `typing.Union[ts...]`. -/
inductive SemanticType where
  | xun
  | any
  | pynone
  | noneType
  | tup : List SemanticType → SemanticType
  | union : List SemanticType → SemanticType
deriving Repr

namespace SemanticType

mutual

/-- Boolean structural equality on semantic type objects.  Because `typing`
caches generic aliases and the leaves are singleton objects, this coincides
with Python `is` on the type objects reachable in this module. -/
def beq : SemanticType → SemanticType → Bool
  | .xun, .xun => true
  | .any, .any => true
  | .pynone, .pynone => true
  | .noneType, .noneType => true
  | .tup as, .tup bs => beqList as bs
  | .union as, .union bs => beqList as bs
  | _, _ => false

/-- Pointwise `beq` on lists of semantic types. -/
def beqList : List SemanticType → List SemanticType → Bool
  | [], [] => true
  | a :: as, b :: bs => beq a b && beqList as bs
  | _, _ => false

end

mutual

/-- Soundness and completeness of `beq`. -/
theorem beq_iff : ∀ a b : SemanticType, beq a b = true ↔ a = b
  | .xun, b => by cases b <;> simp [beq]
  | .any, b => by cases b <;> simp [beq]
  | .pynone, b => by cases b <;> simp [beq]
  | .noneType, b => by cases b <;> simp [beq]
  | .tup as, b => by
      cases b <;> simp [beq]
      exact beqList_iff as _
  | .union as, b => by
      cases b <;> simp [beq]
      exact beqList_iff as _

/-- Soundness and completeness of `beqList`. -/
theorem beqList_iff : ∀ as bs : List SemanticType, beqList as bs = true ↔ as = bs
  | [], bs => by cases bs <;> simp [beqList]
  | a :: as, bs => by
      cases bs with
      | nil => simp [beqList]
      | cons b bs =>
        simp [beqList, Bool.and_eq_true, beq_iff a b, beqList_iff as bs]

end

instance : DecidableEq SemanticType := fun a b =>
  decidable_of_iff (beq a b = true) (beq_iff a b)

end SemanticType

/-- Argument normalisation performed by `typing.Union.__getitem__`: each
parameter goes through `_type_check` (which converts `None` to `type(None)`)
and nested unions are flattened into their members. -/
def unionMembers : SemanticType → List SemanticType
  | .union ts => ts
  | .pynone => [.noneType]
  | t => [t]

/-- Duplicate removal keeping first occurrences, as `typing`'s
`_remove_dups_flatten` does for `Union` parameters; `seen` holds the
members already emitted. -/
def dedupKeepFirst (seen : List SemanticType) : List SemanticType → List SemanticType
  | [] => []
  | t :: ts =>
      if t ∈ seen then dedupKeepFirst seen ts
      else t :: dedupKeepFirst (t :: seen) ts

/-- Embedding of `typing.Union[a, b]`: convert `None`, flatten nested
unions, deduplicate keeping order, and collapse a singleton to its member. -/
def pyUnion (a b : SemanticType) : SemanticType :=
  match dedupKeepFirst [] (unionMembers a ++ unionMembers b) with
  | [t] => t
  | ts => .union ts

/-- Embedding of `isinstance(t, typing.Tuple)` from `visit_Assign` (line 62).
Under Python 3.7+ this is `isinstance(t, tuple)`, which is `False` for every
type object the visitor produces (`XunType`, `typing.Any`, `None`,
`type(None)`, and `typing.Tuple`/`typing.Union` generic aliases are not
`tuple` instances), so this predicate is constantly `false`. -/
def isTupleInstance (_ : SemanticType) : Bool := false

/-- Embedding of `hasattr(t, '__origin__') and t.__origin__ is tuple` from
`visit_ListComp` (lines 158-160): true exactly for `typing.Tuple[...]`
aliases (`typing.Union` aliases have `__origin__ is typing.Union`). -/
def isTupleGeneric : SemanticType → Bool
  | .tup _ => true
  | _ => false

/-- Errors raised by the visitor.  `illegalTaskResultUse` is the
`XunSyntaxError('Cannot use xun function results as values in xun
definition')` raised by `visit_BinOp`; `heterogeneousSet` is the bare
`XunSyntaxError` raised by `visit_Set`; `unsupportedAssignmentForm` is the
`SyntaxError('Multiple targets not supported')` raised by `visit_Assign`;
`indexError` and `attributeError` are the Python exceptions escaping from
`elts[0]` / `targets[0]` / `__args__[i]` accesses. -/
inductive XErr where
  | illegalTaskResultUse
  | heterogeneousSet
  | unsupportedAssignmentForm
  | indexError
  | attributeError
deriving DecidableEq, Repr

/-- Embedding of the attribute access `t.__args__`: `typing.Tuple` and
`typing.Union` aliases expose their argument lists, every other reachable
type object lacks the attribute and the access raises `AttributeError`. -/
def pyArgs : SemanticType → Except XErr (List SemanticType)
  | .tup ts => .ok ts
  | .union ts => .ok ts
  | _ => .error .attributeError

/-- Embedding of the loop `for i in index: t = t.__args__[i]` from
`visit_Assign` (lines 63-64) and `visit_ListComp` (lines 161-162): walk the
index path through `__args__`, raising `AttributeError` on a type object
without `__args__` and `IndexError` on an out-of-range index. -/
def argsWalk : SemanticType → List Nat → Except XErr SemanticType
  | t, [] => .ok t
  | t, i :: is => do
      let args ← pyArgs t
      match args[i]? with
      | some u => argsWalk u is
      | none => .error .indexError

/-- Association list with Python-dict lookup semantics, embedding the
`immutables.Map` instances `var_type_map` and `local_var_type_map`. -/
abbrev Fmap := List (String × SemanticType)

/-- Lookup of a name (`m[k]` / `k in m`). -/
def fmGet : Fmap → String → Option SemanticType
  | [], _ => none
  | (k, v) :: m, n => if k = n then some v else fmGet m n

/-- Binding update (`mm[k] = v` / `mm.set(k, v)`): overwrite an existing
binding in place, otherwise append. -/
def fmSet : Fmap → String → SemanticType → Fmap
  | [], k, v => [(k, v)]
  | (k', v') :: m, k, v => if k' = k then (k, v) :: m else (k', v') :: fmSet m k v

/-- Visitor state: the two `frozenmap` fields of `TypeDeducer`
(`var_type_map` is the function-level environment, `local_var_type_map` the
comprehension-local one). -/
structure State where
  var_type_map : Fmap
  local_var_type_map : Fmap
deriving DecidableEq, Repr

/-- State of a fresh `TypeDeducer` (both maps empty, `__init__`). -/
def initState : State := ⟨[], []⟩

/-- Assignment targets: a bare name or a parenthesised/tuple pattern of
nested targets. -/
inductive Target where
  | name : String → Target
  | tupleT : List Target → Target
deriving Repr

mutual

/-- Modelled from the spec: `xun.functions.util`'s `assignment_target_shape`,
`indices_from_shape` and `flatten_assignment_targets` are not under `src/`.
Per the spec's Destructuring Indexer (§4.3, §3 AssignmentShape), the shape of
a single leaf target is the marker `(1,)` and a compound target yields, in one
deterministic left-to-right order, parallel sequences of index-paths and leaf
names whose zip pairs each leaf with the path to its value inside a `Tuple`.
This function returns that zipped sequence for a compound target's root;
a bare name is a single leaf with the empty path. -/
def leafPaths : Target → List (List Nat × String)
  | .name n => [([], n)]
  | .tupleT ts => leafPathsList 0 ts

/-- Leaf paths of the components of a tuple pattern, prefixing each
component's paths with its position. -/
def leafPathsList : Nat → List Target → List (List Nat × String)
  | _, [] => []
  | i, t :: ts =>
      (leafPaths t).map (fun pn => (i :: pn.1, pn.2)) ++ leafPathsList (i + 1) ts

end

/-- Expression-tree nodes covered by the claims.  `constant` is any literal
constant, `boolOp`/`unaryOp` carry their (never visited) operands, `ifExp`
carries test/body/orelse (the test is never visited), `call` carries the
callee expression and the (never visited) argument list, and `listComp`
carries the element expression and the `(target, iter)` generator clauses
(`ifs`/`is_async` are ignored by the source). -/
inductive Expr where
  | constant : Expr
  | name : String → Expr
  | boolOp : List Expr → Expr
  | unaryOp : Expr → Expr
  | binOp : Expr → Expr → Expr
  | ifExp : Expr → Expr → Expr → Expr
  | setLit : List Expr → Expr
  | call : Expr → List Expr → Expr
  | tupleLit : List Expr → Expr
  | listComp : Expr → List (Target × Expr) → Expr
deriving Repr

/-- Embedding of `visit_Assign` lines 59-66: bind each `(index, target)`
pair, where the projection loop is guarded by
`isinstance(value_type, typing.Tuple)` — constantly false, so every leaf is
bound to `value_type` itself (the guard and walk are kept to mirror the
source text). -/
def assignLeaves (value_type : SemanticType) :
    List (List Nat × String) → Fmap → Except XErr Fmap
  | [], mm => .ok mm
  | (path, nm) :: rest, mm => do
      let tt ←
        if isTupleInstance value_type then argsWalk value_type path
        else .ok value_type
      assignLeaves value_type rest (fmSet mm nm tt)

/-- Embedding of `visit_ListComp` lines 156-163: bind each
`(index, target)` pair of one generator, projecting through `__args__` when
`iter_types` is a `typing.Tuple` generic alias and binding the whole
`iter_types` otherwise. -/
def bindLeaves (iterT : SemanticType) :
    List (List Nat × String) → Fmap → Except XErr Fmap
  | [], mm => .ok mm
  | (path, nm) :: rest, mm => do
      let tt ←
        if isTupleGeneric iterT then argsWalk iterT path
        else .ok iterT
      bindLeaves iterT rest (fmSet mm nm tt)

mutual

/-- Embedding of `TypeDeducer.visit` dispatch over the expression nodes the
claims concern.  `K` is `known_xun_functions`.  Python exceptions become
`Except.error`; the visitor state is threaded explicitly. -/
def visit (K : List String) : Expr → State → Except XErr (SemanticType × State)
  | .constant, s => .ok (.any, s)
  | .name n, s =>
      match fmGet s.var_type_map n with
      | some t => .ok (t, s)
      | none =>
          match fmGet s.local_var_type_map n with
          | some t => .ok (t, s)
          | none => .ok (.any, s)
  | .boolOp _, s => .ok (.pynone, s)
  | .unaryOp _, s => .ok (.pynone, s)
  | .binOp l r, s => do
      let (left_type, s1) ← visit K l s
      let (right_type, s2) ← visit K r s1
      if left_type = .xun ∨ right_type = .xun then .error .illegalTaskResultUse
      else .ok (.any, s2)
  | .ifExp _test body orelse, s => do
      let (body_type, s1) ← visit K body s
      let (orelse_type, s2) ← visit K orelse s1
      if ¬ body_type = orelse_type then .ok (pyUnion body_type orelse_type, s2)
      else .ok (body_type, s2)
  | .setLit elts, s => setVisit K elts s
  | .call f _args, s =>
      match f with
      | .name n => if n ∈ K then .ok (.xun, s) else .ok (.any, s)
      | _ => .ok (.any, s)
  | .tupleLit elts, s => do
      let (ts, s1) ← visitList K elts s
      .ok (.tup ts, s1)
  | .listComp elt gens, s => do
      let (mm, s1) ← visitGens K gens s.var_type_map s
      let (t, s2) ← visit K elt { s1 with local_var_type_map := mm }
      .ok (t, { s2 with local_var_type_map := [] })

/-- Embedding of `visit_Tuple`'s per-element visits (line 228-229),
collecting the element types in source order. -/
def visitList (K : List String) :
    List Expr → State → Except XErr (List SemanticType × State)
  | [], s => .ok ([], s)
  | e :: es, s => do
      let (t, s1) ← visit K e s
      let (ts, s2) ← visitList K es s1
      .ok (t :: ts, s2)

/-- Embedding of `visit_Set` (lines 106-116): `elts[0]` is visited to fix
`set_type` (raising `IndexError` on an empty list), then the loop
`for elt in node.elts` re-visits every element — `elts[0]` included, which
is the unrolled first iteration here — and raises on the first element
whose type is not (`is` comparison) `set_type`. -/
def setVisit (K : List String) :
    List Expr → State → Except XErr (SemanticType × State)
  | [], _ => .error .indexError
  | e0 :: rest, s => do
      let (set_type, s1) ← visit K e0 s
      let (elt_type, s2) ← visit K e0 s1
      if ¬ elt_type = set_type then .error .heterogeneousSet
      else do
        let s3 ← setLoop K set_type rest s2
        .ok (set_type, s3)

/-- Embedding of the remaining iterations of `visit_Set`'s loop. -/
def setLoop (K : List String) (set_type : SemanticType) :
    List Expr → State → Except XErr State
  | [], s => .ok s
  | e :: es, s => do
      let (elt_type, s1) ← visit K e s
      if ¬ elt_type = set_type then .error .heterogeneousSet
      else setLoop K set_type es s1

/-- Embedding of `visit_ListComp`'s generator loop (lines 134-165): the
mutation buffer `mm` starts as a copy of `var_type_map`; each generator's
iterable is visited against the visitor state (the buffer is invisible to
those visits), a `None` iterable type skips binding, a single-name target is
bound to the whole iterable type, and a compound target binds its leaves via
`bindLeaves`. -/
def visitGens (K : List String) :
    List (Target × Expr) → Fmap → State → Except XErr (Fmap × State)
  | [], mm, s => .ok (mm, s)
  | (target, iter) :: gens, mm, s => do
      let (iter_types, s1) ← visit K iter s
      if iter_types = .pynone then visitGens K gens mm s1
      else
        match target with
        | .name nm => visitGens K gens (fmSet mm nm iter_types) s1
        | .tupleT ts => do
            let mm2 ← bindLeaves iter_types (leafPathsList 0 ts) mm
            visitGens K gens mm2 s1

end

/-- Embedding of `visit_Assign` (lines 40-68): at most one target
(otherwise `SyntaxError`), infer the RHS, bind a single-leaf target
directly, and bind the leaves of a compound target via `assignLeaves`;
returns the RHS type. -/
def visit_Assign (K : List String) (targets : List Target) (value : Expr)
    (s : State) : Except XErr (SemanticType × State) :=
  match targets with
  | [] => .error .indexError
  | [target] => do
      let (value_type, s1) ← visit K value s
      match target with
      | .name nm =>
          .ok (value_type,
               { s1 with var_type_map := fmSet s1.var_type_map nm value_type })
      | .tupleT ts => do
          let mm ← assignLeaves value_type (leafPathsList 0 ts) s1.var_type_map
          .ok (value_type, { s1 with var_type_map := mm })
  | _ => .error .unsupportedAssignmentForm

/-- Statements fed to the deducer by the external driver: assignment
statements (the node kind the claims exercise). -/
inductive Stmt where
  | assign : List Target → Expr → Stmt
deriving Repr

/-- Visit of one statement. -/
def visitStmt (K : List String) : Stmt → State → Except XErr (SemanticType × State)
  | .assign targets value, s => visit_Assign K targets value s

/-- The external driver: feed each statement in source order to the visitor,
aborting at the first raised error. -/
def runStmts (K : List String) : List Stmt → State → Except XErr State
  | [], s => .ok s
  | st :: sts, s => do
      let (_, s1) ← visitStmt K st s
      runStmts K sts s1

mutual

/-- Occurrence of the `XunType` object inside a semantic type (directly or
as a member of a `Tuple`/`Union` alias). -/
def mentionsXun : SemanticType → Bool
  | .xun => true
  | .tup ts => mentionsXunList ts
  | .union ts => mentionsXunList ts
  | _ => false

/-- Occurrence of `XunType` in a list of semantic types. -/
def mentionsXunList : List SemanticType → Bool
  | [] => false
  | t :: ts => mentionsXun t || mentionsXunList ts

end

/-- An environment none of whose bound types mentions `XunType`. -/
def cleanMap (m : Fmap) : Bool := m.all (fun pn => !mentionsXun pn.2)

/-- A visitor state both of whose environments are clean. -/
def cleanState (s : State) : Bool :=
  cleanMap s.var_type_map && cleanMap s.local_var_type_map

mutual

/-- Presence, in a visited position, of a call expression whose callee is a
bare name in the known-xun-function set — the one syntactic shape for which
`visit_Call` returns `XunType`.  Positions the source never visits (boolean
and unary operands, a conditional's test, a call's callee subexpressions and
arguments) are not searched. -/
def hasKnownCall (K : List String) : Expr → Bool
  | .constant => false
  | .name _ => false
  | .boolOp _ => false
  | .unaryOp _ => false
  | .binOp l r => hasKnownCall K l || hasKnownCall K r
  | .ifExp _t b o => hasKnownCall K b || hasKnownCall K o
  | .setLit es => hasKnownCallList K es
  | .call f _ =>
      (match f with
       | .name n => decide (n ∈ K)
       | _ => false)
  | .tupleLit es => hasKnownCallList K es
  | .listComp elt gens => hasKnownCall K elt || hasKnownCallGens K gens

/-- Presence of a known-name call in a list of expressions. -/
def hasKnownCallList (K : List String) : List Expr → Bool
  | [] => false
  | e :: es => hasKnownCall K e || hasKnownCallList K es

/-- Presence of a known-name call in the iterables of generator clauses. -/
def hasKnownCallGens (K : List String) : List (Target × Expr) → Bool
  | [] => false
  | (_, iter) :: gens => hasKnownCall K iter || hasKnownCallGens K gens

end

/-- Reduction of `Except` bind on a success value. -/
theorem exceptBind_ok {α β : Type} (x : α) (f : α → Except XErr β) :
    (Except.ok x >>= f : Except XErr β) = f x := rfl

/-- Reduction of `Except` bind on an error value. -/
theorem exceptBind_error {α β : Type} (e : XErr) (f : α → Except XErr β) :
    ((Except.error e : Except XErr α) >>= f : Except XErr β) = Except.error e := rfl

/-- Claim C1: for every binary-operator expression whose operands infer
successfully, `visit_BinOp` raises `IllegalTaskResultUse` exactly when at
least one operand type is `OpaqueTask`, and otherwise returns `Dynamic`;
in particular `z = f() + 1` with `f` a known xun function raises
`IllegalTaskResultUse`. -/
theorem C1_binOp_rejects_task_result (K : List String) (l r : Expr) (s s1 s2 : State)
    (left_type right_type : SemanticType)
    (hl : visit K l s = .ok (left_type, s1))
    (hr : visit K r s1 = .ok (right_type, s2)) :
    (visit K (.binOp l r) s = .error .illegalTaskResultUse ↔
      (left_type = .xun ∨ right_type = .xun)) ∧
    (¬ (left_type = .xun ∨ right_type = .xun) →
      visit K (.binOp l r) s = .ok (.any, s2)) ∧
    visit_Assign ["f"] [.name "z"] (.binOp (.call (.name "f") []) .constant)
      initState = .error .illegalTaskResultUse := by
  have hunfold : visit K (.binOp l r) s =
      if left_type = .xun ∨ right_type = .xun then .error .illegalTaskResultUse
      else .ok (.any, s2) := by
    simp only [visit, hl, exceptBind_ok, hr]
  refine ⟨?_, ?_, by rfl⟩
  · rw [hunfold]
    by_cases hc : left_type = .xun ∨ right_type = .xun <;> simp [hc]
  · intro hc
    rw [hunfold, if_neg hc]

/-- Closed instance of `C1_binOp_rejects_task_result`: `f() + 1` with known `f`
raises `IllegalTaskResultUse`. -/
theorem C1_binOp_rejects_task_result_witness :
    visit ["f"] (.binOp (.call (.name "f") []) .constant) initState
      = .error .illegalTaskResultUse :=
  (C1_binOp_rejects_task_result ["f"] (.call (.name "f") []) .constant
      initState initState initState .xun .any rfl rfl).1.mpr (Or.inl rfl)

/-- Claim C3, code evaluation at the failing input: evaluation of the code at the failing input `(a, b) = (1, f())`
with `f` a known xun function.  Because `isinstance(value_type,
typing.Tuple)` is `False` for every inferred type object, `visit_Assign`'s
projection loop never runs and both `a` and `b` are bound to the whole
right-hand-side type `Tuple[Dynamic, OpaqueTask]` instead of the projected
element types. -/
theorem C3_destructuring_binds_whole_rhs :
    visit_Assign ["f"] [.tupleT [.name "a", .name "b"]]
      (.tupleLit [.constant, .call (.name "f") []]) initState
      = .ok (.tup [.any, .xun],
             ⟨[("a", .tup [.any, .xun]), ("b", .tup [.any, .xun])], []⟩) := by rfl

/-- Claim C4, counterexample: index-path projection is not total — a
comprehension generator destructuring three names from a
`Tuple[Dynamic, Dynamic]` iterable raises `IndexError` (the `__args__[i]`
walk overruns the arity) instead of yielding `Dynamic`. -/
theorem C4_comp_projection_raises :
    visit [] (.listComp .constant
        [(.tupleT [.name "a", .name "b", .name "c"], .name "xs")])
      ⟨[("xs", .tup [.any, .any])], []⟩ = .error .indexError := by rfl

/-- Claim C4, amended: projection as implemented.  In destructuring assignment
the projection branch is never entered (the tuple-instance test is always
false) and each leaf is bound to the whole right-hand-side type without
error; in comprehension generators a source type that is not a
`typing.Tuple` alias likewise binds each leaf to the whole source type
without error, while a `typing.Tuple` source whose arity is overrun by a
leaf's index path raises `IndexError` rather than producing `Dynamic`. -/
theorem C4_projection_as_implemented :
    (∀ (value_type : SemanticType) (pairs : List (List Nat × String)) (mm : Fmap),
        assignLeaves value_type pairs mm =
          .ok (pairs.foldl (fun m pn => fmSet m pn.2 value_type) mm)) ∧
    (∀ (iterT : SemanticType) (pairs : List (List Nat × String)) (mm : Fmap),
        isTupleGeneric iterT = false →
        bindLeaves iterT pairs mm =
          .ok (pairs.foldl (fun m pn => fmSet m pn.2 iterT) mm)) ∧
    (∀ (ts : List SemanticType) (i : Nat) (nm : String)
        (rest : List (List Nat × String)) (mm : Fmap),
        ts.length ≤ i →
        bindLeaves (.tup ts) (([i], nm) :: rest) mm = .error .indexError) := by
  refine ⟨?_, ?_, ?_⟩
  · intro vt pairs
    induction pairs with
    | nil => intro mm; rfl
    | cons pn rest ih =>
        intro mm
        obtain ⟨path, nm⟩ := pn
        simpa [assignLeaves, isTupleInstance, exceptBind_ok] using ih (fmSet mm nm vt)
  · intro iterT pairs
    induction pairs with
    | nil => intro mm _; rfl
    | cons pn rest ih =>
        intro mm h
        obtain ⟨path, nm⟩ := pn
        simpa [bindLeaves, h, exceptBind_ok] using ih (fmSet mm nm iterT) h
  · intro ts i nm rest mm h
    have hnone : ts[i]? = none := List.getElem?_eq_none h
    simp [bindLeaves, isTupleGeneric, argsWalk, pyArgs, hnone, exceptBind_ok,
      exceptBind_error]

/-- Closed instance of `C4_projection_as_implemented`: a two-element
`Tuple` source with a leaf path indexing position 2 raises `IndexError`. -/
theorem C4_projection_as_implemented_witness :
    bindLeaves (.tup [.any, .any]) [([2], "c")] [] = .error .indexError :=
  C4_projection_as_implemented.2.2 [.any, .any] 2 "c" [] [] (by decide)

/-- Claim C5, counterexample: a boolean-operator expression does not infer to
`Dynamic` — `visit_BoolOp` is a `pass` body returning Python `None`, which
is a distinct value from `typing.Any`. -/
theorem C5_boolOp_returns_none_not_dynamic :
    visit [] (.boolOp []) initState = .ok (.pynone, initState) ∧
    SemanticType.pynone ≠ SemanticType.any :=
  ⟨rfl, by decide⟩

/-- Claim C5, amended: for every boolean-operator and unary-operator expression,
inference returns the Python `None` unsupported marker unconditionally —
without visiting or inspecting the operands and without raising, even when
an operand would infer to `OpaqueTask`. -/
theorem C5_boolOp_unaryOp_unconditional :
    (∀ (K : List String) (vals : List Expr) (s : State),
        visit K (.boolOp vals) s = .ok (.pynone, s)) ∧
    (∀ (K : List String) (e : Expr) (s : State),
        visit K (.unaryOp e) s = .ok (.pynone, s)) :=
  ⟨fun _ _ _ => rfl, fun _ _ _ => rfl⟩

/-- Claim C6: a conditional (ternary) expression infers both branches; if the two
branch types are identical it returns that type, otherwise it returns the
`typing.Union` of the two, and it never raises on its own — even when a
branch type is `OpaqueTask`. -/
theorem C6_ifExp_merges_branches (K : List String) (t b o : Expr)
    (s s1 s2 : State) (body_type orelse_type : SemanticType)
    (hb : visit K b s = .ok (body_type, s1))
    (ho : visit K o s1 = .ok (orelse_type, s2)) :
    visit K (.ifExp t b o) s =
      .ok ((if body_type = orelse_type then body_type
            else pyUnion body_type orelse_type), s2) := by
  simp only [visit, hb, exceptBind_ok, ho]
  by_cases hc : body_type = orelse_type <;> simp [hc]

/-- Closed instance of `C6_ifExp_merges_branches`: a conditional with an
`OpaqueTask` branch and a `Dynamic` branch infers to their union without
raising. -/
theorem C6_ifExp_merges_branches_witness :
    visit ["f"] (.ifExp .constant (.call (.name "f") []) .constant) initState
      = .ok (.union [.xun, .any], initState) := by
  have h := C6_ifExp_merges_branches ["f"] .constant (.call (.name "f") [])
    .constant initState initState initState .xun .any rfl rfl
  rw [if_neg (by decide)] at h
  exact h

/-- Behaviour of the `visit_Set` loop when every element's visit succeeds:
it returns the final state when every re-inferred element type equals the
declared `set_type`, and raises the heterogeneous-set error otherwise. -/
theorem setLoop_spec (K : List String) (t0 : SemanticType) :
    ∀ (es : List Expr) (s : State) (ts : List SemanticType) (s2 : State),
      visitList K es s = .ok (ts, s2) →
      setLoop K t0 es s =
        if ∀ t ∈ ts, t = t0 then .ok s2 else .error .heterogeneousSet := by
  intro es
  induction es with
  | nil =>
      intro s ts s2 h
      simp only [visitList, Except.ok.injEq, Prod.mk.injEq] at h
      obtain ⟨rfl, rfl⟩ := h
      simp [setLoop]
  | cons e es ih =>
      intro s ts s2 h
      simp only [visitList] at h
      cases hve : visit K e s with
      | error err => rw [hve, exceptBind_error] at h; exact absurd h (by simp)
      | ok p =>
          obtain ⟨t, sa⟩ := p
          rw [hve, exceptBind_ok] at h
          cases hvl : visitList K es sa with
          | error err => rw [hvl, exceptBind_error] at h; exact absurd h (by simp)
          | ok q =>
              obtain ⟨ts', s2'⟩ := q
              rw [hvl, exceptBind_ok] at h
              simp only [Except.ok.injEq, Prod.mk.injEq] at h
              obtain ⟨rfl, rfl⟩ := h
              simp only [setLoop, hve, exceptBind_ok]
              by_cases ht : t = t0
              · subst ht
                rw [if_neg (by simp)]
                rw [ih sa ts' s2' hvl]
                by_cases hall : ∀ u ∈ ts', u = t
                · rw [if_pos hall, if_pos (by simpa using hall)]
                · rw [if_neg hall, if_neg (by simp [hall])]
              · rw [if_pos (by simpa using ht), if_neg (by
                  intro hall
                  exact ht (hall t (by simp)))]

/-- Claim C7: a set literal takes the first element's inferred type as the
declared element type and raises `HeterogeneousSet` exactly when some
re-inferred element type differs from it; `{1, f()}` with known `f` raises
`HeterogeneousSet` and `{1, 2, 3}` infers to `Dynamic` without raising. -/
theorem C7_set_heterogeneity (K : List String) (e0 : Expr) (rest : List Expr)
    (s s1 : State) (t0 : SemanticType) (ts : List SemanticType) (s2 : State)
    (h0 : visit K e0 s = .ok (t0, s1))
    (hl : visitList K (e0 :: rest) s1 = .ok (ts, s2)) :
    (visit K (.setLit (e0 :: rest)) s =
      if ∀ t ∈ ts, t = t0 then .ok (t0, s2) else .error .heterogeneousSet) ∧
    visit ["f"] (.setLit [.constant, .call (.name "f") []]) initState
      = .error .heterogeneousSet ∧
    visit [] (.setLit [.constant, .constant, .constant]) initState
      = .ok (.any, initState) := by
  refine ⟨?_, by rfl, by rfl⟩
  simp only [visitList] at hl
  cases hve : visit K e0 s1 with
  | error err => rw [hve, exceptBind_error] at hl; exact absurd hl (by simp)
  | ok p =>
      obtain ⟨th, sa⟩ := p
      rw [hve, exceptBind_ok] at hl
      cases hvl : visitList K rest sa with
      | error err => rw [hvl, exceptBind_error] at hl; exact absurd hl (by simp)
      | ok q =>
          obtain ⟨ts', s2'⟩ := q
          rw [hvl, exceptBind_ok] at hl
          simp only [Except.ok.injEq, Prod.mk.injEq] at hl
          obtain ⟨rfl, rfl⟩ := hl
          show setVisit K (e0 :: rest) s = _
          simp only [setVisit, h0, exceptBind_ok, hve]
          by_cases hh : th = t0
          · subst hh
            rw [if_neg (by simp)]
            rw [setLoop_spec K th rest sa ts' s2' hvl]
            by_cases hall : ∀ u ∈ ts', u = th
            · rw [if_pos hall, if_pos (by simpa using hall)]
              rfl
            · rw [if_neg hall, if_neg (by simp [hall]), exceptBind_error]
          · rw [if_pos (by simpa using hh), if_neg (by
              intro hall
              exact hh (hall th (by simp)))]

/-- Closed instance of `C7_set_heterogeneity`: `{1, f()}` with known `f`
raises `HeterogeneousSet` because the second element re-infers to
`OpaqueTask` while the declared element type is `Dynamic`. -/
theorem C7_set_heterogeneity_witness :
    visit ["f"] (.setLit [.constant, .call (.name "f") []]) initState
      = .error .heterogeneousSet := by
  have h := (C7_set_heterogeneity ["f"] .constant [.call (.name "f") []]
    initState initState .any [.any, .xun] initState rfl rfl).1
  rw [if_neg (by decide)] at h
  exact h

/-- Claim C8: a name reference consults the function-level environment first —
a function-level binding wins even when the comprehension-local environment
binds the same name — then the local environment, and yields `Dynamic` when
the name is bound in neither (never an error); and after `x = f(); y = x`
with known `f`, the final environment binds `y` to `OpaqueTask`. -/
theorem C8_name_lookup_order_and_propagation :
    (∀ (K : List String) (n : String) (s : State) (t : SemanticType),
        fmGet s.var_type_map n = some t → visit K (.name n) s = .ok (t, s)) ∧
    (∀ (K : List String) (n : String) (s : State) (t : SemanticType),
        fmGet s.var_type_map n = none → fmGet s.local_var_type_map n = some t →
        visit K (.name n) s = .ok (t, s)) ∧
    (∀ (K : List String) (n : String) (s : State),
        fmGet s.var_type_map n = none → fmGet s.local_var_type_map n = none →
        visit K (.name n) s = .ok (.any, s)) ∧
    visit [] (.name "x") ⟨[("x", .any)], [("x", .xun)]⟩
      = .ok (.any, ⟨[("x", .any)], [("x", .xun)]⟩) ∧
    runStmts ["f"] [.assign [.name "x"] (.call (.name "f") []),
                    .assign [.name "y"] (.name "x")] initState
      = .ok ⟨[("x", .xun), ("y", .xun)], []⟩ := by
  refine ⟨?_, ?_, ?_, by rfl, by rfl⟩
  · intro K n s t h
    simp [visit, h]
  · intro K n s t hv hl
    simp [visit, hv, hl]
  · intro K n s hv hl
    simp [visit, hv, hl]

/-- Closed instance of `C8_name_lookup_order_and_propagation`: a name bound
only in the comprehension-local environment resolves to its local binding. -/
theorem C8_name_lookup_order_and_propagation_witness :
    visit [] (.name "z") ⟨[], [("z", .xun)]⟩ = .ok (.xun, ⟨[], [("z", .xun)]⟩) :=
  C8_name_lookup_order_and_propagation.2.1 [] "z" ⟨[], [("z", .xun)]⟩ .xun rfl rfl

mutual

/-- Expression visits never modify the function-level environment: only
`visit_Assign` writes `var_type_map`. -/
theorem visit_pv : ∀ (K : List String) (e : Expr) (s : State)
    (t : SemanticType) (s' : State),
    visit K e s = .ok (t, s') → s'.var_type_map = s.var_type_map
  | K, .constant, s => by
      intro t s' h
      simp only [visit, Except.ok.injEq, Prod.mk.injEq] at h
      rw [← h.2]
  | K, .name n, s => by
      intro t s' h
      simp only [visit] at h
      cases hv : fmGet s.var_type_map n with
      | some tv =>
          simp only [hv, Except.ok.injEq, Prod.mk.injEq] at h
          rw [← h.2]
      | none =>
          simp only [hv] at h
          cases hl : fmGet s.local_var_type_map n with
          | some tl =>
              simp only [hl, Except.ok.injEq, Prod.mk.injEq] at h
              rw [← h.2]
          | none =>
              simp only [hl, Except.ok.injEq, Prod.mk.injEq] at h
              rw [← h.2]
  | K, .boolOp vals, s => by
      intro t s' h
      simp only [visit, Except.ok.injEq, Prod.mk.injEq] at h
      rw [← h.2]
  | K, .unaryOp e, s => by
      intro t s' h
      simp only [visit, Except.ok.injEq, Prod.mk.injEq] at h
      rw [← h.2]
  | K, .binOp l r, s => by
      intro t s' h
      simp only [visit] at h
      cases hl : visit K l s with
      | error err => rw [hl, exceptBind_error] at h; exact absurd h (by simp)
      | ok p =>
          obtain ⟨lt, s1⟩ := p
          rw [hl, exceptBind_ok] at h
          cases hr : visit K r s1 with
          | error err => rw [hr, exceptBind_error] at h; exact absurd h (by simp)
          | ok q =>
              obtain ⟨rt, s2⟩ := q
              rw [hr, exceptBind_ok] at h
              by_cases hc : lt = .xun ∨ rt = .xun
              · rw [if_pos hc] at h; exact absurd h (by simp)
              · rw [if_neg hc] at h
                simp only [Except.ok.injEq, Prod.mk.injEq] at h
                rw [← h.2, visit_pv K r s1 rt s2 hr, visit_pv K l s lt s1 hl]
  | K, .ifExp tst b o, s => by
      intro t s' h
      simp only [visit] at h
      cases hb : visit K b s with
      | error err => rw [hb, exceptBind_error] at h; exact absurd h (by simp)
      | ok p =>
          obtain ⟨bt, s1⟩ := p
          rw [hb, exceptBind_ok] at h
          cases ho : visit K o s1 with
          | error err => rw [ho, exceptBind_error] at h; exact absurd h (by simp)
          | ok q =>
              obtain ⟨ot, s2⟩ := q
              rw [ho, exceptBind_ok] at h
              have hvar : s2.var_type_map = s.var_type_map := by
                rw [visit_pv K o s1 ot s2 ho, visit_pv K b s bt s1 hb]
              by_cases hc : bt = ot
              · rw [if_neg (not_not_intro hc)] at h
                simp only [Except.ok.injEq, Prod.mk.injEq] at h
                rw [← h.2, hvar]
              · rw [if_pos hc] at h
                simp only [Except.ok.injEq, Prod.mk.injEq] at h
                rw [← h.2, hvar]
  | K, .setLit elts, s => by
      intro t s' h
      exact setVisit_pv K elts s t s' h
  | K, .call f args, s => by
      intro t s' h
      cases f
      case name n =>
          simp only [visit] at h
          by_cases hk : n ∈ K
          · rw [if_pos hk] at h
            simp only [Except.ok.injEq, Prod.mk.injEq] at h
            rw [← h.2]
          · rw [if_neg hk] at h
            simp only [Except.ok.injEq, Prod.mk.injEq] at h
            rw [← h.2]
      all_goals
        simp only [visit, Except.ok.injEq, Prod.mk.injEq] at h
      all_goals rw [← h.2]
  | K, .tupleLit elts, s => by
      intro t s' h
      simp only [visit] at h
      cases hv : visitList K elts s with
      | error err => rw [hv, exceptBind_error] at h; exact absurd h (by simp)
      | ok p =>
          obtain ⟨ts, s1⟩ := p
          rw [hv, exceptBind_ok] at h
          simp only [Except.ok.injEq, Prod.mk.injEq] at h
          rw [← h.2, visitList_pv K elts s ts s1 hv]
  | K, .listComp elt gens, s => by
      intro t s' h
      simp only [visit] at h
      cases hg : visitGens K gens s.var_type_map s with
      | error err => rw [hg, exceptBind_error] at h; exact absurd h (by simp)
      | ok p =>
          obtain ⟨mm, s1⟩ := p
          rw [hg, exceptBind_ok] at h
          cases hv : visit K elt { s1 with local_var_type_map := mm } with
          | error err => rw [hv, exceptBind_error] at h; exact absurd h (by simp)
          | ok q =>
              obtain ⟨te, s2⟩ := q
              rw [hv, exceptBind_ok] at h
              simp only [Except.ok.injEq, Prod.mk.injEq] at h
              rw [← h.2]
              have h2 := visit_pv K elt { s1 with local_var_type_map := mm } te s2 hv
              simp only at h2
              show s2.var_type_map = s.var_type_map
              rw [h2, visitGens_pv K gens s.var_type_map s mm s1 hg]

/-- List visits never modify the function-level environment. -/
theorem visitList_pv : ∀ (K : List String) (es : List Expr) (s : State)
    (ts : List SemanticType) (s' : State),
    visitList K es s = .ok (ts, s') → s'.var_type_map = s.var_type_map
  | K, [], s => by
      intro ts s' h
      simp only [visitList, Except.ok.injEq, Prod.mk.injEq] at h
      rw [← h.2]
  | K, e :: es, s => by
      intro ts s' h
      simp only [visitList] at h
      cases hv : visit K e s with
      | error err => rw [hv, exceptBind_error] at h; exact absurd h (by simp)
      | ok p =>
          obtain ⟨t, s1⟩ := p
          rw [hv, exceptBind_ok] at h
          cases hl : visitList K es s1 with
          | error err => rw [hl, exceptBind_error] at h; exact absurd h (by simp)
          | ok q =>
              obtain ⟨ts', s2⟩ := q
              rw [hl, exceptBind_ok] at h
              simp only [Except.ok.injEq, Prod.mk.injEq] at h
              rw [← h.2, visitList_pv K es s1 ts' s2 hl, visit_pv K e s t s1 hv]

/-- The set visitor never modifies the function-level environment. -/
theorem setVisit_pv : ∀ (K : List String) (es : List Expr) (s : State)
    (t : SemanticType) (s' : State),
    setVisit K es s = .ok (t, s') → s'.var_type_map = s.var_type_map
  | K, [], s => by
      intro t s' h
      exact absurd h (by simp [setVisit])
  | K, e0 :: rest, s => by
      intro t s' h
      simp only [setVisit] at h
      cases h0 : visit K e0 s with
      | error err => rw [h0, exceptBind_error] at h; exact absurd h (by simp)
      | ok p =>
          obtain ⟨t0, s1⟩ := p
          rw [h0, exceptBind_ok] at h
          cases h1 : visit K e0 s1 with
          | error err => rw [h1, exceptBind_error] at h; exact absurd h (by simp)
          | ok q =>
              obtain ⟨te, s2⟩ := q
              rw [h1, exceptBind_ok] at h
              by_cases hc : te = t0
              · rw [if_neg (not_not_intro hc)] at h
                cases hl : setLoop K t0 rest s2 with
                | error err => rw [hl, exceptBind_error] at h; exact absurd h (by simp)
                | ok s3 =>
                    rw [hl, exceptBind_ok] at h
                    simp only [Except.ok.injEq, Prod.mk.injEq] at h
                    rw [← h.2, setLoop_pv K t0 rest s2 s3 hl,
                      visit_pv K e0 s1 te s2 h1, visit_pv K e0 s t0 s1 h0]
              · rw [if_pos hc] at h; exact absurd h (by simp)

/-- The set-element loop never modifies the function-level environment. -/
theorem setLoop_pv : ∀ (K : List String) (t0 : SemanticType) (es : List Expr)
    (s s' : State),
    setLoop K t0 es s = .ok s' → s'.var_type_map = s.var_type_map
  | K, t0, [], s => by
      intro s' h
      simp only [setLoop, Except.ok.injEq] at h
      rw [← h]
  | K, t0, e :: es, s => by
      intro s' h
      simp only [setLoop] at h
      cases hv : visit K e s with
      | error err => rw [hv, exceptBind_error] at h; exact absurd h (by simp)
      | ok p =>
          obtain ⟨t, s1⟩ := p
          rw [hv, exceptBind_ok] at h
          by_cases hc : t = t0
          · rw [if_neg (not_not_intro hc)] at h
            rw [setLoop_pv K t0 es s1 s' h, visit_pv K e s t s1 hv]
          · rw [if_pos hc] at h; exact absurd h (by simp)

/-- The generator loop never modifies the function-level environment (it
only fills the mutation buffer that later becomes the local environment). -/
theorem visitGens_pv : ∀ (K : List String) (gens : List (Target × Expr))
    (mm : Fmap) (s : State) (mm' : Fmap) (s' : State),
    visitGens K gens mm s = .ok (mm', s') → s'.var_type_map = s.var_type_map
  | K, [], mm, s => by
      intro mm' s' h
      simp only [visitGens, Except.ok.injEq, Prod.mk.injEq] at h
      rw [← h.2]
  | K, (target, iter) :: gens, mm, s => by
      intro mm' s' h
      simp only [visitGens] at h
      cases hv : visit K iter s with
      | error err => rw [hv, exceptBind_error] at h; exact absurd h (by simp)
      | ok p =>
          obtain ⟨iterT, s1⟩ := p
          rw [hv, exceptBind_ok] at h
          have hs1 : s1.var_type_map = s.var_type_map :=
            visit_pv K iter s iterT s1 hv
          by_cases hn : iterT = .pynone
          · rw [if_pos hn] at h
            rw [visitGens_pv K gens mm s1 mm' s' h, hs1]
          · rw [if_neg hn] at h
            cases target with
            | name nm =>
                simp only [] at h
                rw [visitGens_pv K gens (fmSet mm nm iterT) s1 mm' s' h, hs1]
            | tupleT ts =>
                simp only [] at h
                cases hb : bindLeaves iterT (leafPathsList 0 ts) mm with
                | error err => rw [hb, exceptBind_error] at h; exact absurd h (by simp)
                | ok mm2 =>
                    rw [hb, exceptBind_ok] at h
                    rw [visitGens_pv K gens mm2 s1 mm' s' h, hs1]

end

/-- Claim C9: once a comprehension's element expression has been inferred, the
comprehension-local environment is discarded unconditionally and the
function-level environment is exactly what it was before; afterwards the
generator names of `[(i, k) for i in xs for k in i]` resolve to `Dynamic`
in the outer scope, not to the types inferred inside. -/
theorem C9_comp_scope_discarded :
    (∀ (K : List String) (elt : Expr) (gens : List (Target × Expr)) (s : State)
        (t : SemanticType) (s' : State),
        visit K (.listComp elt gens) s = .ok (t, s') →
        s'.var_type_map = s.var_type_map ∧ s'.local_var_type_map = []) ∧
    visit [] (.listComp (.tupleLit [.name "i", .name "k"])
        [(.name "i", .name "xs"), (.name "k", .name "i")])
      ⟨[("xs", .tup [.any])], []⟩
      = .ok (.tup [.tup [.any], .any], ⟨[("xs", .tup [.any])], []⟩) ∧
    visit [] (.name "i") ⟨[("xs", .tup [.any])], []⟩
      = .ok (.any, ⟨[("xs", .tup [.any])], []⟩) ∧
    visit [] (.name "k") ⟨[("xs", .tup [.any])], []⟩
      = .ok (.any, ⟨[("xs", .tup [.any])], []⟩) := by
  refine ⟨?_, by rfl, by rfl, by rfl⟩
  intro K elt gens s t s' h
  refine ⟨visit_pv K (.listComp elt gens) s t s' h, ?_⟩
  simp only [visit] at h
  cases hg : visitGens K gens s.var_type_map s with
  | error err => rw [hg, exceptBind_error] at h; exact absurd h (by simp)
  | ok p =>
      obtain ⟨mm, s1⟩ := p
      rw [hg, exceptBind_ok] at h
      cases hv : visit K elt { s1 with local_var_type_map := mm } with
      | error err => rw [hv, exceptBind_error] at h; exact absurd h (by simp)
      | ok q =>
          obtain ⟨te, s2⟩ := q
          rw [hv, exceptBind_ok] at h
          simp only [Except.ok.injEq, Prod.mk.injEq] at h
          rw [← h.2]

/-- Closed instance of `C9_comp_scope_discarded` at the comprehension
`[(i, k) for i in xs for k in i]`. -/
theorem C9_comp_scope_discarded_witness :
    (State.mk [("xs", .tup [.any])] []).var_type_map
        = (State.mk [("xs", .tup [.any])] []).var_type_map ∧
    (State.mk [("xs", .tup [.any])] []).local_var_type_map = [] :=
  C9_comp_scope_discarded.1 [] (.tupleLit [.name "i", .name "k"])
    [(.name "i", .name "xs"), (.name "k", .name "i")]
    ⟨[("xs", .tup [.any])], []⟩ (.tup [.tup [.any], .any])
    ⟨[("xs", .tup [.any])], []⟩ rfl

/-- Leaf binding of one generator ignores the content of the mutation
buffer: it either fails with an error independent of the buffer or extends
any buffer by the same list of bindings. -/
theorem bindLeaves_shape (iterT : SemanticType) :
    ∀ pairs : List (List Nat × String),
      (∃ e, ∀ mm : Fmap, bindLeaves iterT pairs mm = .error e) ∨
      (∃ δ : List (String × SemanticType), ∀ mm : Fmap,
        bindLeaves iterT pairs mm =
          .ok (δ.foldl (fun m pn => fmSet m pn.1 pn.2) mm)) := by
  intro pairs
  induction pairs with
  | nil => exact Or.inr ⟨[], fun mm => rfl⟩
  | cons pn rest ih =>
      obtain ⟨path, nm⟩ := pn
      cases hg : isTupleGeneric iterT with
      | false =>
          cases ih with
          | inl he =>
              obtain ⟨e, hrec⟩ := he
              exact Or.inl ⟨e, fun mm => by
                simp only [bindLeaves, hg, Bool.false_eq_true, if_false,
                  exceptBind_ok]
                exact hrec (fmSet mm nm iterT)⟩
          | inr hok =>
              obtain ⟨δ, hrec⟩ := hok
              exact Or.inr ⟨(nm, iterT) :: δ, fun mm => by
                simp only [bindLeaves, hg, Bool.false_eq_true, if_false,
                  exceptBind_ok, List.foldl_cons]
                exact hrec (fmSet mm nm iterT)⟩
      | true =>
          cases hw : argsWalk iterT path with
          | error e =>
              exact Or.inl ⟨e, fun mm => by
                simp only [bindLeaves, hg, if_true, hw, exceptBind_error]⟩
          | ok tt =>
              cases ih with
              | inl he =>
                  obtain ⟨e, hrec⟩ := he
                  exact Or.inl ⟨e, fun mm => by
                    simp only [bindLeaves, hg, if_true, hw, exceptBind_ok]
                    exact hrec (fmSet mm nm tt)⟩
              | inr hok =>
                  obtain ⟨δ, hrec⟩ := hok
                  exact Or.inr ⟨(nm, tt) :: δ, fun mm => by
                    simp only [bindLeaves, hg, if_true, hw, exceptBind_ok,
                      List.foldl_cons]
                    exact hrec (fmSet mm nm tt)⟩

/-- Claim C10: the generator loop installs no binding before all generators are
processed — the outcome of processing the generator clauses (error raised,
final visitor state, and the bindings appended to the buffer) is entirely
independent of the buffer's current content, so a later generator's
iterable can never observe an earlier generator's target binding; in
`[(i, k) for i in xs for k in i]` with `xs : Tuple[Dynamic]`, the second
iterable `i` resolves through the outer environment to `Dynamic` (binding
`k` to `Dynamic`) while the element expression does see `i`'s binding. -/
theorem C10_generators_isolated :
    (∀ (K : List String) (gens : List (Target × Expr)) (s : State),
        (∃ e, ∀ mm : Fmap, visitGens K gens mm s = .error e) ∨
        (∃ (δ : List (String × SemanticType)) (s' : State), ∀ mm : Fmap,
          visitGens K gens mm s =
            .ok (δ.foldl (fun m pn => fmSet m pn.1 pn.2) mm, s'))) ∧
    visit [] (.listComp (.tupleLit [.name "i", .name "k"])
        [(.name "i", .name "xs"), (.name "k", .name "i")])
      ⟨[("xs", .tup [.any])], []⟩
      = .ok (.tup [.tup [.any], .any], ⟨[("xs", .tup [.any])], []⟩) := by
  refine ⟨?_, by rfl⟩
  intro K gens
  induction gens with
  | nil => intro s; exact Or.inr ⟨[], s, fun mm => rfl⟩
  | cons g gens ih =>
      intro s
      obtain ⟨target, iter⟩ := g
      cases hv : visit K iter s with
      | error e =>
          exact Or.inl ⟨e, fun mm => by
            simp only [visitGens, hv, exceptBind_error]⟩
      | ok p =>
          obtain ⟨iterT, s1⟩ := p
          by_cases hn : iterT = .pynone
          · cases ih s1 with
            | inl he =>
                obtain ⟨e, hrec⟩ := he
                exact Or.inl ⟨e, fun mm => by
                  simp only [visitGens, hv, exceptBind_ok, if_pos hn]
                  exact hrec mm⟩
            | inr hok =>
                obtain ⟨δ, s', hrec⟩ := hok
                exact Or.inr ⟨δ, s', fun mm => by
                  simp only [visitGens, hv, exceptBind_ok, if_pos hn]
                  exact hrec mm⟩
          · cases target with
            | name nm =>
                cases ih s1 with
                | inl he =>
                    obtain ⟨e, hrec⟩ := he
                    exact Or.inl ⟨e, fun mm => by
                      simp only [visitGens, hv, exceptBind_ok, if_neg hn]
                      exact hrec (fmSet mm nm iterT)⟩
                | inr hok =>
                    obtain ⟨δ, s', hrec⟩ := hok
                    exact Or.inr ⟨(nm, iterT) :: δ, s', fun mm => by
                      simp only [visitGens, hv, exceptBind_ok, if_neg hn,
                        List.foldl_cons]
                      exact hrec (fmSet mm nm iterT)⟩
            | tupleT ts =>
                cases bindLeaves_shape iterT (leafPathsList 0 ts) with
                | inl hbe =>
                    obtain ⟨e, hb⟩ := hbe
                    exact Or.inl ⟨e, fun mm => by
                      simp only [visitGens, hv, exceptBind_ok, if_neg hn, hb mm,
                        exceptBind_error]⟩
                | inr hbok =>
                    obtain ⟨δb, hb⟩ := hbok
                    cases ih s1 with
                    | inl he =>
                        obtain ⟨e, hrec⟩ := he
                        exact Or.inl ⟨e, fun mm => by
                          simp only [visitGens, hv, exceptBind_ok, if_neg hn,
                            hb mm, exceptBind_ok]
                          exact hrec _⟩
                    | inr hok =>
                        obtain ⟨δ, s', hrec⟩ := hok
                        exact Or.inr ⟨δb ++ δ, s', fun mm => by
                          simp only [visitGens, hv, exceptBind_ok, if_neg hn,
                            hb mm, exceptBind_ok, List.foldl_append]
                          exact hrec _⟩

/-- Absence of `XunType` from a type list, member by member. -/
theorem mentionsXunList_eq_false {ts : List SemanticType} :
    mentionsXunList ts = false ↔ ∀ t ∈ ts, mentionsXun t = false := by
  induction ts with
  | nil => simp [mentionsXunList]
  | cons t ts ih => simp [mentionsXunList, ih]

/-- Lookup in a clean environment yields a clean type. -/
theorem fmGet_clean {m : Fmap} {n : String} {t : SemanticType}
    (hc : cleanMap m = true) (h : fmGet m n = some t) :
    mentionsXun t = false := by
  induction m with
  | nil => simp [fmGet] at h
  | cons kv m ih =>
      obtain ⟨k, v⟩ := kv
      simp only [cleanMap, List.all_cons, Bool.and_eq_true] at hc
      simp only [fmGet] at h
      by_cases hk : k = n
      · rw [if_pos hk] at h
        cases h
        simpa using hc.1
      · rw [if_neg hk] at h
        exact ih (by simpa [cleanMap] using hc.2) h

/-- Binding a clean type preserves environment cleanliness. -/
theorem fmSet_clean {m : Fmap} {n : String} {v : SemanticType}
    (hc : cleanMap m = true) (hv : mentionsXun v = false) :
    cleanMap (fmSet m n v) = true := by
  induction m with
  | nil => simp [fmSet, cleanMap, hv]
  | cons kv m ih =>
      obtain ⟨k, w⟩ := kv
      simp only [cleanMap, List.all_cons, Bool.and_eq_true] at hc
      by_cases hk : k = n
      · simp [fmSet, hk, cleanMap, hv]
        simpa [cleanMap] using hc.2
      · simp only [fmSet, if_neg hk]
        simp [cleanMap, hc.1]
        exact (by simpa [cleanMap] using ih (by simpa [cleanMap] using hc.2))

/-- The normalised union members of a clean type are clean (`None` is
converted to `type(None)`, which is clean). -/
theorem unionMembers_clean {a : SemanticType} (ha : mentionsXun a = false) :
    ∀ t ∈ unionMembers a, mentionsXun t = false := by
  cases a with
  | union ts =>
      intro t ht
      simp only [unionMembers] at ht
      exact (mentionsXunList_eq_false.mp (by simpa [mentionsXun] using ha)) t ht
  | pynone => intro t ht; simp [unionMembers] at ht; simp [ht, mentionsXun]
  | xun => simp [mentionsXun] at ha
  | any => intro t ht; simp [unionMembers] at ht; simp [ht, mentionsXun]
  | noneType => intro t ht; simp [unionMembers] at ht; simp [ht, mentionsXun]
  | tup ts =>
      intro t ht
      simp only [unionMembers, List.mem_singleton] at ht
      simpa [ht] using ha

/-- Deduplication only keeps members of the input list. -/
theorem dedupKeepFirst_subset :
    ∀ (l seen : List SemanticType) (t : SemanticType),
      t ∈ dedupKeepFirst seen l → t ∈ l := by
  intro l
  induction l with
  | nil => intro seen t ht; simp [dedupKeepFirst] at ht
  | cons a l ih =>
      intro seen t ht
      simp only [dedupKeepFirst] at ht
      by_cases hs : a ∈ seen
      · rw [if_pos hs] at ht
        exact List.mem_cons_of_mem a (ih seen t ht)
      · rw [if_neg hs] at ht
        rcases List.mem_cons.mp ht with h | h
        · rw [h]; exact List.mem_cons_self a l
        · exact List.mem_cons_of_mem a (ih (a :: seen) t h)

/-- `typing.Union` of two clean types is clean. -/
theorem pyUnion_clean {a b : SemanticType} (ha : mentionsXun a = false)
    (hb : mentionsXun b = false) : mentionsXun (pyUnion a b) = false := by
  have hmem : ∀ t ∈ dedupKeepFirst [] (unionMembers a ++ unionMembers b),
      mentionsXun t = false := by
    intro t ht
    rcases List.mem_append.mp (dedupKeepFirst_subset _ [] t ht) with h | h
    · exact unionMembers_clean ha t h
    · exact unionMembers_clean hb t h
  cases hd : dedupKeepFirst [] (unionMembers a ++ unionMembers b) with
  | nil => simp [pyUnion, hd, mentionsXun, mentionsXunList]
  | cons t rest =>
      cases rest with
      | nil =>
          simp only [pyUnion, hd]
          exact hmem t (by rw [hd]; exact List.mem_cons_self t [])
      | cons t2 rest2 =>
          simp only [pyUnion, hd, mentionsXun]
          exact mentionsXunList_eq_false.mpr (fun u hu => hmem u (by rw [hd]; exact hu))

/-- Walking `__args__` from a clean type yields a clean type. -/
theorem argsWalk_clean :
    ∀ (path : List Nat) (t u : SemanticType), mentionsXun t = false →
      argsWalk t path = .ok u → mentionsXun u = false := by
  intro path
  induction path with
  | nil =>
      intro t u ht h
      simp only [argsWalk, Except.ok.injEq] at h
      rw [← h]; exact ht
  | cons i is ih =>
      intro t u ht h
      simp only [argsWalk] at h
      cases t with
      | tup ts =>
          simp only [pyArgs, exceptBind_ok] at h
          cases hw : ts[i]? with
          | none => rw [hw] at h; exact absurd h (by simp)
          | some w =>
              rw [hw] at h
              have hwm : mentionsXun w = false :=
                (mentionsXunList_eq_false.mp (by simpa [mentionsXun] using ht)) w
                  (List.getElem?_mem hw)
              exact ih w u hwm h
      | union ts =>
          simp only [pyArgs, exceptBind_ok] at h
          cases hw : ts[i]? with
          | none => rw [hw] at h; exact absurd h (by simp)
          | some w =>
              rw [hw] at h
              have hwm : mentionsXun w = false :=
                (mentionsXunList_eq_false.mp (by simpa [mentionsXun] using ht)) w
                  (List.getElem?_mem hw)
              exact ih w u hwm h
      | xun => simp [mentionsXun] at ht
      | any => simp [pyArgs, exceptBind_error] at h
      | pynone => simp [pyArgs, exceptBind_error] at h
      | noneType => simp [pyArgs, exceptBind_error] at h

/-- Assignment leaf binding with a clean right-hand-side type preserves
environment cleanliness. -/
theorem assignLeaves_clean :
    ∀ (pairs : List (List Nat × String)) (vt : SemanticType) (mm mm' : Fmap),
      mentionsXun vt = false → cleanMap mm = true →
      assignLeaves vt pairs mm = .ok mm' → cleanMap mm' = true := by
  intro pairs
  induction pairs with
  | nil =>
      intro vt mm mm' _ hc h
      simp only [assignLeaves, Except.ok.injEq] at h
      rw [← h]; exact hc
  | cons pn rest ih =>
      intro vt mm mm' hv hc h
      obtain ⟨path, nm⟩ := pn
      simp only [assignLeaves, isTupleInstance, Bool.false_eq_true, if_false,
        exceptBind_ok] at h
      exact ih vt (fmSet mm nm vt) mm' hv (fmSet_clean hc hv) h

/-- Generator leaf binding with a clean iterable type preserves buffer
cleanliness (projected element types of a clean type are clean). -/
theorem bindLeaves_clean :
    ∀ (pairs : List (List Nat × String)) (iterT : SemanticType) (mm mm' : Fmap),
      mentionsXun iterT = false → cleanMap mm = true →
      bindLeaves iterT pairs mm = .ok mm' → cleanMap mm' = true := by
  intro pairs
  induction pairs with
  | nil =>
      intro iterT mm mm' _ hc h
      simp only [bindLeaves, Except.ok.injEq] at h
      rw [← h]; exact hc
  | cons pn rest ih =>
      intro iterT mm mm' hv hc h
      obtain ⟨path, nm⟩ := pn
      cases hg : isTupleGeneric iterT with
      | false =>
          simp only [bindLeaves, hg, Bool.false_eq_true, if_false,
            exceptBind_ok] at h
          exact ih iterT (fmSet mm nm iterT) mm' hv (fmSet_clean hc hv) h
      | true =>
          simp only [bindLeaves, hg, if_true] at h
          cases hw : argsWalk iterT path with
          | error e => rw [hw, exceptBind_error] at h; exact absurd h (by simp)
          | ok tt =>
              rw [hw, exceptBind_ok] at h
              have htt : mentionsXun tt = false := argsWalk_clean path iterT tt hv hw
              exact ih iterT (fmSet mm nm tt) mm' hv (fmSet_clean hc htt) h

mutual

/-- Visiting an expression with no known-name call in a visited position,
in a state whose environments are clean of `XunType`, yields a clean type
and a clean state: the call rule is the sole fresh producer of `XunType`. -/
theorem visit_clean : ∀ (K : List String) (e : Expr) (s : State)
    (t : SemanticType) (s' : State),
    hasKnownCall K e = false → cleanState s = true →
    visit K e s = .ok (t, s') → mentionsXun t = false ∧ cleanState s' = true
  | K, .constant, s => by
      intro t s' hk hs h
      simp only [visit, Except.ok.injEq, Prod.mk.injEq] at h
      exact ⟨h.1 ▸ rfl, h.2 ▸ hs⟩
  | K, .name n, s => by
      intro t s' hk hs h
      simp only [cleanState, Bool.and_eq_true] at hs
      simp only [visit] at h
      cases hv : fmGet s.var_type_map n with
      | some tv =>
          simp only [hv, Except.ok.injEq, Prod.mk.injEq] at h
          refine ⟨h.1 ▸ fmGet_clean hs.1 hv, h.2 ▸ ?_⟩
          simp [cleanState, hs.1, hs.2]
      | none =>
          simp only [hv] at h
          cases hl : fmGet s.local_var_type_map n with
          | some tl =>
              simp only [hl, Except.ok.injEq, Prod.mk.injEq] at h
              refine ⟨h.1 ▸ fmGet_clean hs.2 hl, h.2 ▸ ?_⟩
              simp [cleanState, hs.1, hs.2]
          | none =>
              simp only [hl, Except.ok.injEq, Prod.mk.injEq] at h
              refine ⟨h.1 ▸ rfl, h.2 ▸ ?_⟩
              simp [cleanState, hs.1, hs.2]
  | K, .boolOp vals, s => by
      intro t s' hk hs h
      simp only [visit, Except.ok.injEq, Prod.mk.injEq] at h
      exact ⟨h.1 ▸ rfl, h.2 ▸ hs⟩
  | K, .unaryOp e, s => by
      intro t s' hk hs h
      simp only [visit, Except.ok.injEq, Prod.mk.injEq] at h
      exact ⟨h.1 ▸ rfl, h.2 ▸ hs⟩
  | K, .binOp l r, s => by
      intro t s' hk hs h
      simp only [hasKnownCall, Bool.or_eq_false_iff] at hk
      simp only [visit] at h
      cases hl : visit K l s with
      | error err => rw [hl, exceptBind_error] at h; exact absurd h (by simp)
      | ok p =>
          obtain ⟨lt, s1⟩ := p
          rw [hl, exceptBind_ok] at h
          have h1 := visit_clean K l s lt s1 hk.1 hs hl
          cases hr : visit K r s1 with
          | error err => rw [hr, exceptBind_error] at h; exact absurd h (by simp)
          | ok q =>
              obtain ⟨rt, s2⟩ := q
              rw [hr, exceptBind_ok] at h
              have h2 := visit_clean K r s1 rt s2 hk.2 h1.2 hr
              by_cases hc : lt = .xun ∨ rt = .xun
              · rw [if_pos hc] at h; exact absurd h (by simp)
              · rw [if_neg hc] at h
                simp only [Except.ok.injEq, Prod.mk.injEq] at h
                exact ⟨h.1 ▸ rfl, h.2 ▸ h2.2⟩
  | K, .ifExp tst b o, s => by
      intro t s' hk hs h
      simp only [hasKnownCall, Bool.or_eq_false_iff] at hk
      simp only [visit] at h
      cases hb : visit K b s with
      | error err => rw [hb, exceptBind_error] at h; exact absurd h (by simp)
      | ok p =>
          obtain ⟨bt, s1⟩ := p
          rw [hb, exceptBind_ok] at h
          have h1 := visit_clean K b s bt s1 hk.1 hs hb
          cases ho : visit K o s1 with
          | error err => rw [ho, exceptBind_error] at h; exact absurd h (by simp)
          | ok q =>
              obtain ⟨ot, s2⟩ := q
              rw [ho, exceptBind_ok] at h
              have h2 := visit_clean K o s1 ot s2 hk.2 h1.2 ho
              by_cases hc : bt = ot
              · rw [if_neg (not_not_intro hc)] at h
                simp only [Except.ok.injEq, Prod.mk.injEq] at h
                exact ⟨h.1 ▸ h1.1, h.2 ▸ h2.2⟩
              · rw [if_pos hc] at h
                simp only [Except.ok.injEq, Prod.mk.injEq] at h
                exact ⟨h.1 ▸ pyUnion_clean h1.1 h2.1, h.2 ▸ h2.2⟩
  | K, .setLit elts, s => by
      intro t s' hk hs h
      simp only [hasKnownCall] at hk
      exact setVisit_clean K elts s t s' hk hs h
  | K, .call f args, s => by
      intro t s' hk hs h
      simp only [hasKnownCall] at hk
      cases f
      case name n =>
          simp only [] at hk
          simp only [visit] at h
          by_cases hn : n ∈ K
          · rw [decide_eq_true hn] at hk
            exact absurd hk (by simp)
          · rw [if_neg hn] at h
            simp only [Except.ok.injEq, Prod.mk.injEq] at h
            exact ⟨h.1 ▸ rfl, h.2 ▸ hs⟩
      all_goals
        simp only [visit, Except.ok.injEq, Prod.mk.injEq] at h
      all_goals exact ⟨h.1 ▸ rfl, h.2 ▸ hs⟩
  | K, .tupleLit elts, s => by
      intro t s' hk hs h
      simp only [hasKnownCall] at hk
      simp only [visit] at h
      cases hv : visitList K elts s with
      | error err => rw [hv, exceptBind_error] at h; exact absurd h (by simp)
      | ok p =>
          obtain ⟨ts, s1⟩ := p
          rw [hv, exceptBind_ok] at h
          have h1 := visitList_clean K elts s ts s1 hk hs hv
          simp only [Except.ok.injEq, Prod.mk.injEq] at h
          refine ⟨h.1 ▸ ?_, h.2 ▸ h1.2⟩
          simpa [mentionsXun] using h1.1
  | K, .listComp elt gens, s => by
      intro t s' hk hs h
      simp only [hasKnownCall, Bool.or_eq_false_iff] at hk
      have hsv : cleanMap s.var_type_map = true := by
        simp only [cleanState, Bool.and_eq_true] at hs
        exact hs.1
      simp only [visit] at h
      cases hg : visitGens K gens s.var_type_map s with
      | error err => rw [hg, exceptBind_error] at h; exact absurd h (by simp)
      | ok p =>
          obtain ⟨mm, s1⟩ := p
          rw [hg, exceptBind_ok] at h
          have h1 := visitGens_clean K gens s.var_type_map s mm s1 hk.2 hs hsv hg
          cases hv : visit K elt { s1 with local_var_type_map := mm } with
          | error err => rw [hv, exceptBind_error] at h; exact absurd h (by simp)
          | ok q =>
              obtain ⟨te, s2⟩ := q
              rw [hv, exceptBind_ok] at h
              have hs1' : cleanState { s1 with local_var_type_map := mm } = true := by
                have := h1.2
                simp only [cleanState, Bool.and_eq_true] at this ⊢
                exact ⟨this.1, h1.1⟩
              have h2 := visit_clean K elt { s1 with local_var_type_map := mm }
                te s2 hk.1 hs1' hv
              simp only [Except.ok.injEq, Prod.mk.injEq] at h
              refine ⟨h.1 ▸ h2.1, h.2 ▸ ?_⟩
              have := h2.2
              simp only [cleanState, Bool.and_eq_true] at this ⊢
              exact ⟨this.1, rfl⟩

/-- Clean propagation through sequential list visits. -/
theorem visitList_clean : ∀ (K : List String) (es : List Expr) (s : State)
    (ts : List SemanticType) (s' : State),
    hasKnownCallList K es = false → cleanState s = true →
    visitList K es s = .ok (ts, s') →
    mentionsXunList ts = false ∧ cleanState s' = true
  | K, [], s => by
      intro ts s' hk hs h
      simp only [visitList, Except.ok.injEq, Prod.mk.injEq] at h
      exact ⟨h.1 ▸ rfl, h.2 ▸ hs⟩
  | K, e :: es, s => by
      intro ts s' hk hs h
      simp only [hasKnownCallList, Bool.or_eq_false_iff] at hk
      simp only [visitList] at h
      cases hv : visit K e s with
      | error err => rw [hv, exceptBind_error] at h; exact absurd h (by simp)
      | ok p =>
          obtain ⟨t, s1⟩ := p
          rw [hv, exceptBind_ok] at h
          have h1 := visit_clean K e s t s1 hk.1 hs hv
          cases hl : visitList K es s1 with
          | error err => rw [hl, exceptBind_error] at h; exact absurd h (by simp)
          | ok q =>
              obtain ⟨ts', s2⟩ := q
              rw [hl, exceptBind_ok] at h
              have h2 := visitList_clean K es s1 ts' s2 hk.2 h1.2 hl
              simp only [Except.ok.injEq, Prod.mk.injEq] at h
              refine ⟨h.1 ▸ ?_, h.2 ▸ h2.2⟩
              simp [mentionsXunList, h1.1, h2.1]

/-- Clean propagation through the set visitor. -/
theorem setVisit_clean : ∀ (K : List String) (es : List Expr) (s : State)
    (t : SemanticType) (s' : State),
    hasKnownCallList K es = false → cleanState s = true →
    setVisit K es s = .ok (t, s') → mentionsXun t = false ∧ cleanState s' = true
  | K, [], s => by
      intro t s' hk hs h
      exact absurd h (by simp [setVisit])
  | K, e0 :: rest, s => by
      intro t s' hk hs h
      simp only [hasKnownCallList, Bool.or_eq_false_iff] at hk
      simp only [setVisit] at h
      cases h0 : visit K e0 s with
      | error err => rw [h0, exceptBind_error] at h; exact absurd h (by simp)
      | ok p =>
          obtain ⟨t0, s1⟩ := p
          rw [h0, exceptBind_ok] at h
          have h1 := visit_clean K e0 s t0 s1 hk.1 hs h0
          cases h0' : visit K e0 s1 with
          | error err => rw [h0', exceptBind_error] at h; exact absurd h (by simp)
          | ok q =>
              obtain ⟨te, s2⟩ := q
              rw [h0', exceptBind_ok] at h
              have h2 := visit_clean K e0 s1 te s2 hk.1 h1.2 h0'
              by_cases hc : te = t0
              · rw [if_neg (not_not_intro hc)] at h
                cases hl : setLoop K t0 rest s2 with
                | error err => rw [hl, exceptBind_error] at h; exact absurd h (by simp)
                | ok s3 =>
                    rw [hl, exceptBind_ok] at h
                    have h3 := setLoop_clean K t0 rest s2 s3 hk.2 h2.2 hl
                    simp only [Except.ok.injEq, Prod.mk.injEq] at h
                    exact ⟨h.1 ▸ h1.1, h.2 ▸ h3⟩
              · rw [if_pos hc] at h; exact absurd h (by simp)

/-- Clean propagation through the set-element loop. -/
theorem setLoop_clean : ∀ (K : List String) (t0 : SemanticType)
    (es : List Expr) (s s' : State),
    hasKnownCallList K es = false → cleanState s = true →
    setLoop K t0 es s = .ok s' → cleanState s' = true
  | K, t0, [], s => by
      intro s' hk hs h
      simp only [setLoop, Except.ok.injEq] at h
      exact h ▸ hs
  | K, t0, e :: es, s => by
      intro s' hk hs h
      simp only [hasKnownCallList, Bool.or_eq_false_iff] at hk
      simp only [setLoop] at h
      cases hv : visit K e s with
      | error err => rw [hv, exceptBind_error] at h; exact absurd h (by simp)
      | ok p =>
          obtain ⟨t, s1⟩ := p
          rw [hv, exceptBind_ok] at h
          have h1 := visit_clean K e s t s1 hk.1 hs hv
          by_cases hc : t = t0
          · rw [if_neg (not_not_intro hc)] at h
            exact setLoop_clean K t0 es s1 s' hk.2 h1.2 h
          · rw [if_pos hc] at h; exact absurd h (by simp)

/-- Clean propagation through the generator loop: a clean buffer stays
clean and the visitor state stays clean. -/
theorem visitGens_clean : ∀ (K : List String) (gens : List (Target × Expr))
    (mm : Fmap) (s : State) (mm' : Fmap) (s' : State),
    hasKnownCallGens K gens = false → cleanState s = true → cleanMap mm = true →
    visitGens K gens mm s = .ok (mm', s') →
    cleanMap mm' = true ∧ cleanState s' = true
  | K, [], mm, s => by
      intro mm' s' hk hs hm h
      simp only [visitGens, Except.ok.injEq, Prod.mk.injEq] at h
      exact ⟨h.1 ▸ hm, h.2 ▸ hs⟩
  | K, (target, iter) :: gens, mm, s => by
      intro mm' s' hk hs hm h
      simp only [hasKnownCallGens, Bool.or_eq_false_iff] at hk
      simp only [visitGens] at h
      cases hv : visit K iter s with
      | error err => rw [hv, exceptBind_error] at h; exact absurd h (by simp)
      | ok p =>
          obtain ⟨iterT, s1⟩ := p
          rw [hv, exceptBind_ok] at h
          have h1 := visit_clean K iter s iterT s1 hk.1 hs hv
          by_cases hn : iterT = .pynone
          · rw [if_pos hn] at h
            exact visitGens_clean K gens mm s1 mm' s' hk.2 h1.2 hm h
          · rw [if_neg hn] at h
            cases target with
            | name nm =>
                simp only [] at h
                exact visitGens_clean K gens (fmSet mm nm iterT) s1 mm' s' hk.2
                  h1.2 (fmSet_clean hm h1.1) h
            | tupleT ts =>
                simp only [] at h
                cases hb : bindLeaves iterT (leafPathsList 0 ts) mm with
                | error err => rw [hb, exceptBind_error] at h; exact absurd h (by simp)
                | ok mm2 =>
                    rw [hb, exceptBind_ok] at h
                    have hm2 := bindLeaves_clean (leafPathsList 0 ts) iterT mm mm2
                      h1.1 hm hb
                    exact visitGens_clean K gens mm2 s1 mm' s' hk.2 h1.2 hm2 h

end

/-- Claim C2: a call expression infers to `OpaqueTask` exactly when the callee is
a bare name in the known-xun-function set, regardless of the arguments;
every other call shape infers to `Dynamic`; and the call rule is the sole
fresh producer of `OpaqueTask` — an expression with no known-name call in a
visited position, inferred in an environment clean of `XunType`, yields a
type and environments clean of `XunType`. -/
theorem C2_call_sole_producer :
    (∀ (K : List String) (n : String) (args : List Expr) (s : State),
        visit K (.call (.name n) args) s =
          .ok ((if n ∈ K then SemanticType.xun else SemanticType.any), s)) ∧
    (∀ (K : List String) (f : Expr) (args : List Expr) (s : State),
        (∀ n, f ≠ .name n) → visit K (.call f args) s = .ok (.any, s)) ∧
    (∀ (K : List String) (e : Expr) (s : State) (t : SemanticType) (s' : State),
        hasKnownCall K e = false → cleanState s = true →
        visit K e s = .ok (t, s') →
        mentionsXun t = false ∧ cleanState s' = true) := by
  refine ⟨?_, ?_, visit_clean⟩
  · intro K n args s
    by_cases hn : n ∈ K <;> simp [visit, hn]
  · intro K f args s hf
    cases f
    case name n => exact absurd rfl (hf n)
    all_goals rfl

/-- Closed instance of `C2_call_sole_producer`: inferring `1 + 2` (no call
anywhere) from the clean initial state yields a type clean of `XunType`. -/
theorem C2_call_sole_producer_witness :
    mentionsXun SemanticType.any = false ∧ cleanState initState = true :=
  C2_call_sole_producer.2.2 ["f"] (.binOp .constant .constant) initState
    .any initState rfl rfl rfl

end XunTyping
